import Mathlib

/-!
Shallow embedding of the volume-profile core of `app.py`: the tick-size
table, tick-accurate grid generation, volume distribution over the grid,
POC summarization, and the rolling-mean indicator layer.  Prices and
volumes are modelled as exact rationals.
-/

/-- One OHLCV bar, restricted to the columns the profile core reads
(the `Low`, `High` and `Volume` columns of the dataframe). -/
structure Bar where
  low : ℚ
  high : ℚ
  volume : ℚ

/-- The tick-size table `get_tw_tick` of `app.py`. -/
def get_tw_tick (price : ℚ) : ℚ :=
  if price < 10 then 1/100
  else if price < 50 then 5/100
  else if price < 100 then 1/10
  else if price < 500 then 1/2
  else if price < 1000 then 1
  else 5

/-- Model of Python's `round(x, 2)`: round to two decimal digits.
(Half-way cases round half-up here; no computation in this development
hits a half-way case.) -/
def round2 (x : ℚ) : ℚ := (round (x * 100) : ℤ) / 100

/-- Loop body of `generate_tick_bins`: while `current < high_price` and
steps remain, advance by the tick size at `current`, round to two decimal
digits and append.  `fuel` is the remaining iteration budget
(`max_steps - steps`). -/
def genTickBinsAux : ℕ → ℚ → ℚ → List ℚ
  | 0, _, _ => []
  | fuel + 1, current, high_price =>
    if current < high_price then
      let next := round2 (current + get_tw_tick current)
      next :: genTickBinsAux fuel next high_price
    else []

/-- The function `generate_tick_bins` of `app.py`, with its hard cap
`max_steps = 10000`. -/
def generate_tick_bins (low_price high_price : ℚ) : List ℚ :=
  low_price :: genTickBinsAux 10000 low_price high_price

/-- Model of `numpy.searchsorted(edges, v, side='left')` on a sorted
array: the number of elements strictly below `v`, i.e. the first index
whose element is `≥ v`. -/
def searchsorted_left (edges : List ℚ) (v : ℚ) : ℕ :=
  edges.countP (fun e => decide (e < v))

/-- Model of `numpy.searchsorted(edges, v, side='right')` on a sorted
array: the number of elements `≤ v`, i.e. the first index whose element
is `> v`. -/
def searchsorted_right (edges : List ℚ) (v : ℚ) : ℕ :=
  edges.countP (fun e => decide (e ≤ v))

/-- Model of the numpy slice update `hist[s:e] += v`: add `v` at every
index in `[s, e)` that exists; indices at or past the end of the array
are silently ignored, exactly as numpy slicing does. -/
def addSlice (v : ℚ) : ℕ → ℕ → List ℚ → List ℚ
  | _, _, [] => []
  | 0, 0, l => l
  | 0, e + 1, x :: xs => (x + v) :: addSlice v 0 e xs
  | s + 1, e, x :: xs => x :: addSlice v s (e - 1) xs

/-- The per-bar index computation of `calculate_precise_volume_profile`
(lines 90 to 95 of `app.py`): locate the bucket of `low` via
`searchsorted right - 1`, the bucket reached by `high` via
`searchsorted left`, clamp both into range, and force a non-empty span
when the result is empty or inverted. -/
def touchedSpan (edges : List ℚ) (histLen : ℕ) (b : Bar) : ℤ × ℤ :=
  let start_idx : ℤ := (searchsorted_right edges b.low : ℤ) - 1
  let end_idx : ℤ := (searchsorted_left edges b.high : ℤ)
  let start_idx : ℤ := max 0 start_idx
  let end_idx : ℤ := min (histLen : ℤ) end_idx
  let end_idx : ℤ := if end_idx ≤ start_idx then start_idx + 1 else end_idx
  (start_idx, end_idx)

/-- One iteration of the distribution loop of
`calculate_precise_volume_profile` (lines 84 to 99 of `app.py`): skip
zero-volume bars, otherwise add `day_vol / num_bins` to every touched
bucket. -/
def distributeBar (edges : List ℚ) (hist : List ℚ) (b : Bar) : List ℚ :=
  if b.volume = 0 then hist
  else
    let span := touchedSpan edges hist.length b
    let num_bins : ℤ := span.2 - span.1
    if 0 < num_bins then
      addSlice (b.volume / (num_bins : ℚ)) span.1.toNat span.2.toNat hist
    else hist

/-- The distribution loop of `calculate_precise_volume_profile` over a
given grid, starting from the zero histogram `np.zeros(len(edges) - 1)`. -/
def distribute (edges : List ℚ) (bars : List Bar) : List ℚ :=
  bars.foldl (fun h b => distributeBar edges h b) (List.replicate (edges.length - 1) 0)

/-- The series minimum `df['Low'].min()`. -/
def minLow (bars : List Bar) : ℚ := ((bars.map Bar.low).min?).getD 0

/-- The series maximum `df['High'].max()`. -/
def maxHigh (bars : List Bar) : ℚ := ((bars.map Bar.high).max?).getD 0

/-- The function `calculate_precise_volume_profile` of `app.py`: build
the tick grid from the series extremes and distribute every bar's volume
over it.  Returns `(vol_hist, edges)`. -/
def calculate_precise_volume_profile (bars : List Bar) : List ℚ × List ℚ :=
  let edges := generate_tick_bins (minLow bars) (maxHigh bars)
  (distribute edges bars, edges)

/-- Model of `numpy.argmax`: the index of the first occurrence of the
maximum value (`0` on the empty list, where numpy raises instead). -/
def np_argmax : List ℚ → ℕ
  | [] => 0
  | [_] => 0
  | x :: y :: rest =>
    if x < (y :: rest).getD (np_argmax (y :: rest)) 0 then np_argmax (y :: rest) + 1
    else 0

/-- The profile summarizer (lines 139 to 140 of `app.py`):
`max_idx = np.argmax(hist)` and `poc = (edges[max_idx] + edges[max_idx+1]) / 2`. -/
def summarize (hist edges : List ℚ) : ℕ × ℚ :=
  let max_idx := np_argmax hist
  (max_idx, (edges.getD max_idx 0 + edges.getD (max_idx + 1) 0) / 2)

/-- Model of pandas `close.rolling(w).mean()` (lines 125 to 128 of
`app.py`): entry `i` is undefined (`none`) until a full window of `w`
values ends at `i`, and from then on is the mean of entries
`i+1-w` through `i`. -/
def rollingMean (w : ℕ) (xs : List ℚ) : List (Option ℚ) :=
  (List.range xs.length).map fun i =>
    if i + 1 < w then none
    else some ((((xs.drop (i + 1 - w)).take w).sum) / w)

/-- Modelled from the spec: the fixed-count grid strategy ("n+1 equally
spaced edges from minimum Low to maximum High for a caller-supplied
bucket count n").  This strategy is absent from `src/app.py`, which
ships only the tick-accurate strategy. -/
def generate_fixed_bins (low_price high_price : ℚ) (n : ℕ) : List ℚ :=
  (List.range (n + 1)).map fun i : ℕ => low_price + (high_price - low_price) * (i : ℚ) / (n : ℚ)

/-! ### Helper lemmas: tick table and grid generation -/

lemma get_tw_tick_ge (price : ℚ) : 1/100 ≤ get_tw_tick price := by
  unfold get_tw_tick
  split_ifs <;> norm_num

lemma sub_lt_round2 (x : ℚ) : x - 1/200 < round2 x := by
  have h := sub_half_lt_round (x * 100)
  rw [round2, lt_div_iff₀ (by norm_num : (0:ℚ) < 100)]
  linarith

lemma lt_round2_step (c : ℚ) : c < round2 (c + get_tw_tick c) := by
  have h1 := sub_lt_round2 (c + get_tw_tick c)
  have h2 := get_tw_tick_ge c
  linarith

lemma genTickBinsAux_chain (fuel : ℕ) :
    ∀ c h : ℚ, List.Chain' (· < ·) (c :: genTickBinsAux fuel c h) := by
  induction fuel with
  | zero => intro c h; simp [genTickBinsAux]
  | succ n ih =>
    intro c h
    simp only [genTickBinsAux]
    split_ifs with hc
    · exact List.chain'_cons.mpr ⟨lt_round2_step c, ih _ h⟩
    · simp

lemma genTickBinsAux_length (fuel : ℕ) :
    ∀ c h : ℚ, (genTickBinsAux fuel c h).length ≤ fuel := by
  induction fuel with
  | zero => intro c h; simp [genTickBinsAux]
  | succ n ih =>
    intro c h
    simp only [genTickBinsAux]
    split_ifs with hc
    · simpa using Nat.succ_le_succ (ih _ h)
    · simp

/-! ### Claim C5, C7, C2 -/

/-- C5: for every pair of positive prices, `generate_tick_bins` terminates
within the hard step cap (at most 1 + 10000 edges ever get built) and
returns a strictly increasing sequence of edges whose first element
equals `low_price`. -/
theorem tick_grid_terminates_strictly_increasing (low_price high_price : ℚ)
    (hlow : 0 < low_price) (hhigh : 0 < high_price) :
    List.Chain' (· < ·) (generate_tick_bins low_price high_price) ∧
    (generate_tick_bins low_price high_price).head? = some low_price ∧
    (generate_tick_bins low_price high_price).length ≤ 10001 := by
  refine ⟨genTickBinsAux_chain 10000 low_price high_price, rfl, ?_⟩
  have h := genTickBinsAux_length 10000 low_price high_price
  simp only [generate_tick_bins, List.length_cons]
  omega

theorem tick_grid_terminates_strictly_increasing_witness :
    (0:ℚ) < 1 ∧ (0:ℚ) < 2 ∧
    (List.Chain' (· < ·) (generate_tick_bins 1 2) ∧
     (generate_tick_bins 1 2).head? = some 1 ∧
     (generate_tick_bins 1 2).length ≤ 10001) :=
  ⟨by norm_num, by norm_num,
   tick_grid_terminates_strictly_increasing 1 2 (by norm_num) (by norm_num)⟩

/-- C7: the tick-size table maps each price band to its increment:
0.01 below 10, 0.05 on [10, 50), 0.1 on [50, 100), 0.5 on [100, 500),
1.0 on [500, 1000) and 5.0 from 1000 upward, the bands being tested
lowest threshold first. -/
theorem tick_table_thresholds (price : ℚ) (hp : 0 < price) :
    (price < 10 → get_tw_tick price = 1/100) ∧
    (10 ≤ price → price < 50 → get_tw_tick price = 5/100) ∧
    (50 ≤ price → price < 100 → get_tw_tick price = 1/10) ∧
    (100 ≤ price → price < 500 → get_tw_tick price = 1/2) ∧
    (500 ≤ price → price < 1000 → get_tw_tick price = 1) ∧
    (1000 ≤ price → get_tw_tick price = 5) := by
  refine ⟨fun h1 => ?_, fun h1 h2 => ?_, fun h1 h2 => ?_, fun h1 h2 => ?_,
    fun h1 h2 => ?_, fun h1 => ?_⟩ <;>
    (unfold get_tw_tick; split_ifs <;> first | rfl | linarith)

theorem tick_table_thresholds_witness :
    (0:ℚ) < 5 ∧ ((5:ℚ) < 10 → get_tw_tick 5 = 1/100) :=
  ⟨by norm_num, (tick_table_thresholds 5 (by norm_num)).1⟩

/-- C2 (failing evaluation): on the degenerate single-bar series with
low = high = 100 and volume = 1000, the code returns the single-edge
grid `[100]`, which frames zero buckets, and an empty histogram whose
sum is 0 rather than 1000; downstream, `np.argmax` has no bucket to
select as the POC ever (on the real numpy it raises on the empty
histogram). -/
theorem degenerate_range_collapses_grid :
    calculate_precise_volume_profile [⟨100, 100, 1000⟩] = ([], [100]) ∧
    ((calculate_precise_volume_profile [⟨100, 100, 1000⟩]).2).length = 1 ∧
    ((calculate_precise_volume_profile [⟨100, 100, 1000⟩]).1).sum = 0 := by
  exact ⟨by decide, by decide, by decide⟩

/-! ### Helper lemmas: slice update, searchsorted, spans -/

lemma addSlice_nil (v : ℚ) (s e : ℕ) : addSlice v s e [] = [] := by
  cases s <;> cases e <;> rfl

lemma addSlice_length (v : ℚ) :
    ∀ (l : List ℚ) (s e : ℕ), (addSlice v s e l).length = l.length := by
  intro l
  induction l with
  | nil => intro s e; rw [addSlice_nil]
  | cons x xs ih =>
    intro s e
    match s, e with
    | 0, 0 => rfl
    | 0, e + 1 => simp [addSlice, ih]
    | s + 1, e => simp [addSlice, ih]

lemma addSlice_sum (v : ℚ) :
    ∀ (l : List ℚ) (s e : ℕ), e ≤ l.length →
      (addSlice v s e l).sum = l.sum + ((e - s : ℕ) : ℚ) * v := by
  intro l
  induction l with
  | nil =>
    intro s e he
    have he0 : e = 0 := by simpa using he
    subst he0
    rw [addSlice_nil]
    simp
  | cons x xs ih =>
    intro s e he
    match s, e with
    | 0, 0 => simp [addSlice]
    | 0, e + 1 =>
      have h1 : e ≤ xs.length := by simpa using he
      simp only [addSlice, List.sum_cons, ih 0 e h1, Nat.sub_zero]
      push_cast
      ring
    | s + 1, e =>
      have h1 : e - 1 ≤ xs.length := by
        simp only [List.length_cons] at he
        omega
      simp only [addSlice, List.sum_cons, ih s (e - 1) h1]
      have hnat : e - (s + 1) = e - 1 - s := by omega
      rw [hnat]
      ring

lemma addSlice_of_length_le (v : ℚ) :
    ∀ (l : List ℚ) (s e : ℕ), l.length ≤ s → addSlice v s e l = l := by
  intro l
  induction l with
  | nil => intro s e _; exact addSlice_nil v s e
  | cons x xs ih =>
    intro s e hs
    match s with
    | 0 => simp at hs
    | s + 1 =>
      have : xs.length ≤ s := by simpa using hs
      simp [addSlice, ih s (e - 1) this]

lemma searchsorted_right_le_length (edges : List ℚ) (v : ℚ) :
    searchsorted_right edges v ≤ edges.length :=
  List.countP_le_length _

lemma getLastD_mem : ∀ (l : List ℚ) (d : ℚ), l ≠ [] → l.getLastD d ∈ l := by
  intro l
  induction l with
  | nil => intro d h; exact absurd rfl h
  | cons a t ih =>
    intro d _
    rw [List.getLastD_cons]
    cases t with
    | nil => simp
    | cons b t' => exact List.mem_cons_of_mem a (ih a (by simp))

lemma searchsorted_right_lt_length (edges : List ℚ) (v : ℚ) (hne : edges ≠ [])
    (hv : v < edges.getLastD 0) : searchsorted_right edges v < edges.length := by
  refine lt_of_le_of_ne (searchsorted_right_le_length edges v) (fun heq => ?_)
  have hall := List.countP_eq_length.mp heq
  have hmem := getLastD_mem edges 0 hne
  have hle := hall _ hmem
  simp only [decide_eq_true_eq] at hle
  linarith

lemma le_getLastD_of_pairwise :
    ∀ (l : List ℚ) (d : ℚ), l.Pairwise (· ≤ ·) → ∀ x ∈ l, x ≤ l.getLastD d := by
  intro l
  induction l with
  | nil => intro d _ x hx; simp at hx
  | cons a t ih =>
    intro d hp x hx
    rw [List.getLastD_cons]
    rw [List.pairwise_cons] at hp
    rcases List.mem_cons.mp hx with rfl | hxt
    · cases t with
      | nil => simp
      | cons b t' => exact hp.1 _ (getLastD_mem (b :: t') x (by simp))
    · exact ih a hp.2 x hxt

lemma touchedSpan_eq (edges : List ℚ) (n : ℕ) (b : Bar) :
    touchedSpan edges n b =
      (max 0 ((searchsorted_right edges b.low : ℤ) - 1),
       if min (n : ℤ) (searchsorted_left edges b.high : ℤ)
            ≤ max 0 ((searchsorted_right edges b.low : ℤ) - 1)
        then max 0 ((searchsorted_right edges b.low : ℤ) - 1) + 1
        else min (n : ℤ) (searchsorted_left edges b.high : ℤ)) := rfl

lemma touchedSpan_lt (edges : List ℚ) (n : ℕ) (b : Bar) :
    (touchedSpan edges n b).1 < (touchedSpan edges n b).2 := by
  rw [touchedSpan_eq]
  dsimp only
  split_ifs with h
  · exact lt_add_one _
  · exact not_le.mp h

lemma touchedSpan_bounds (edges : List ℚ) (n : ℕ) (b : Bar)
    (hn : 1 ≤ n) (hssr : searchsorted_right edges b.low ≤ n) :
    0 ≤ (touchedSpan edges n b).1 ∧
    (touchedSpan edges n b).1 < (touchedSpan edges n b).2 ∧
    (touchedSpan edges n b).2 ≤ (n : ℤ) := by
  refine ⟨?_, touchedSpan_lt edges n b, ?_⟩
  · rw [touchedSpan_eq]
    exact le_max_left 0 _
  · rw [touchedSpan_eq]
    dsimp only
    have hc : (searchsorted_right edges b.low : ℤ) ≤ (n : ℤ) := by exact_mod_cast hssr
    have hn' : (1 : ℤ) ≤ (n : ℤ) := by exact_mod_cast hn
    split_ifs with h
    · omega
    · exact min_le_left _ _

/-! ### Helper lemmas: the distributor -/

lemma distributeBar_def (edges hist : List ℚ) (b : Bar) :
    distributeBar edges hist b =
      if b.volume = 0 then hist
      else if 0 < (touchedSpan edges hist.length b).2 - (touchedSpan edges hist.length b).1 then
        addSlice
          (b.volume / (((touchedSpan edges hist.length b).2 - (touchedSpan edges hist.length b).1 : ℤ) : ℚ))
          (touchedSpan edges hist.length b).1.toNat (touchedSpan edges hist.length b).2.toNat hist
      else hist := rfl

lemma distributeBar_length (edges hist : List ℚ) (b : Bar) :
    (distributeBar edges hist b).length = hist.length := by
  rw [distributeBar_def]
  split_ifs with h1 h2
  · rfl
  · exact addSlice_length _ hist _ _
  · rfl

lemma distributeBar_sum (edges hist : List ℚ) (b : Bar)
    (hlen : hist.length + 1 = edges.length)
    (hhead : edges.headD 0 ≤ b.low)
    (hlast : b.low < edges.getLastD 0) :
    (distributeBar edges hist b).sum = hist.sum + b.volume := by
  rw [distributeBar_def]
  split_ifs with h1 h2
  · rw [h1]; ring
  · -- main case: the slice stays inside the histogram and adds exactly the volume
    have hne : edges ≠ [] := by
      intro h; rw [h] at hlen; simp at hlen
    have hlen2 : 2 ≤ edges.length := by
      by_contra hcon
      push_neg at hcon
      have h1' : 0 < edges.length := List.length_pos.mpr hne
      have : edges.length = 1 := by omega
      obtain ⟨a, ha⟩ := List.length_eq_one.mp this
      rw [ha] at hhead hlast
      rw [List.headD_cons] at hhead
      rw [List.getLastD_cons, List.getLastD_nil] at hlast
      linarith
    have hn1 : 1 ≤ hist.length := by omega
    have hssr : searchsorted_right edges b.low ≤ hist.length := by
      have := searchsorted_right_lt_length edges b.low hne hlast
      omega
    obtain ⟨hS0, hSE, hEn⟩ := touchedSpan_bounds edges hist.length b hn1 hssr
    have hEnat : (touchedSpan edges hist.length b).2.toNat ≤ hist.length := by omega
    rw [addSlice_sum _ hist _ _ hEnat]
    have hcastZ :
        (((touchedSpan edges hist.length b).2.toNat - (touchedSpan edges hist.length b).1.toNat : ℕ) : ℤ)
          = (touchedSpan edges hist.length b).2 - (touchedSpan edges hist.length b).1 := by
      omega
    have hcast :
        (((touchedSpan edges hist.length b).2.toNat - (touchedSpan edges hist.length b).1.toNat : ℕ) : ℚ)
          = (((touchedSpan edges hist.length b).2 - (touchedSpan edges hist.length b).1 : ℤ) : ℚ) := by
      exact_mod_cast congrArg (fun z : ℤ => (z : ℚ)) hcastZ
    rw [hcast]
    have hne0 :
        (((touchedSpan edges hist.length b).2 - (touchedSpan edges hist.length b).1 : ℤ) : ℚ) ≠ 0 := by
      have hpos : (0:ℤ) < (touchedSpan edges hist.length b).2 - (touchedSpan edges hist.length b).1 := by
        omega
      exact_mod_cast hpos.ne'
    rw [mul_comm, div_mul_cancel₀ _ hne0]
  · exact absurd (touchedSpan_lt edges hist.length b) (by omega)

lemma foldl_distributeBar_length (edges : List ℚ) :
    ∀ (bars : List Bar) (hist : List ℚ),
      (bars.foldl (fun h b => distributeBar edges h b) hist).length = hist.length := by
  intro bars
  induction bars with
  | nil => intro hist; rfl
  | cons b bs ih => intro hist; rw [List.foldl_cons, ih, distributeBar_length]

lemma foldl_distributeBar_sum (edges : List ℚ) :
    ∀ (bars : List Bar) (hist : List ℚ),
      hist.length + 1 = edges.length →
      (∀ b ∈ bars, edges.headD 0 ≤ b.low ∧ b.low < edges.getLastD 0) →
      (bars.foldl (fun h b => distributeBar edges h b) hist).sum
        = hist.sum + (bars.map Bar.volume).sum := by
  intro bars
  induction bars with
  | nil => intro hist _ _; simp
  | cons b bs ih =>
    intro hist hlen hb
    rw [List.foldl_cons]
    have hblen : (distributeBar edges hist b).length + 1 = edges.length := by
      rw [distributeBar_length]; exact hlen
    rw [ih _ hblen (fun x hx => hb x (List.mem_cons_of_mem b hx))]
    rw [distributeBar_sum edges hist b hlen (hb b (List.mem_cons_self b bs)).1
      (hb b (List.mem_cons_self b bs)).2]
    simp only [List.map_cons, List.sum_cons]
    ring

lemma foldl_min_le_init : ∀ (t : List ℚ) (a : ℚ), t.foldl min a ≤ a := by
  intro t
  induction t with
  | nil => intro a; exact le_refl a
  | cons y ys ih => intro a; exact le_trans (ih (min a y)) (min_le_left a y)

lemma foldl_min_le_mem : ∀ (t : List ℚ) (a x : ℚ), x ∈ t → t.foldl min a ≤ x := by
  intro t
  induction t with
  | nil => intro a x hx; simp at hx
  | cons y ys ih =>
    intro a x hx
    rcases List.mem_cons.mp hx with rfl | h
    · exact le_trans (foldl_min_le_init ys (min a x)) (min_le_right a x)
    · exact ih (min a y) x h

lemma minLow_le (bars : List Bar) (b : Bar) (hb : b ∈ bars) : minLow bars ≤ b.low := by
  unfold minLow
  cases bars with
  | nil => simp at hb
  | cons c cs =>
    simp only [List.map_cons, List.min?, Option.getD_some]
    rcases List.mem_cons.mp hb with rfl | h
    · exact foldl_min_le_init _ _
    · exact foldl_min_le_mem _ _ _ (List.mem_map_of_mem Bar.low h)

/-! ### Claims C1, C8, C10 -/

/-- C1 as amended: volume is conserved for every bar series with all
positive volumes in which, additionally, every bar's low lies strictly
below the final grid edge.  (As originally stated the claim fails: a bar
whose low equals the final edge is silently dropped, see the
counterexample.) -/
theorem volume_conservation_of_low_lt_last_edge (bars : List Bar)
    (hvol : ∀ b ∈ bars, 0 < b.volume)
    (hlow : ∀ b ∈ bars,
      b.low < (generate_tick_bins (minLow bars) (maxHigh bars)).getLastD 0) :
    ((calculate_precise_volume_profile bars).1).sum = (bars.map Bar.volume).sum := by
  have hcalc : (calculate_precise_volume_profile bars).1
      = distribute (generate_tick_bins (minLow bars) (maxHigh bars)) bars := rfl
  rw [hcalc]
  unfold distribute
  set edges := generate_tick_bins (minLow bars) (maxHigh bars) with hedges
  have hne : edges ≠ [] := by rw [hedges, generate_tick_bins]; exact List.cons_ne_nil _ _
  have hpos : 0 < edges.length := List.length_pos.mpr hne
  have h1 : (List.replicate (edges.length - 1) (0:ℚ)).length + 1 = edges.length := by
    simp only [List.length_replicate]
    omega
  rw [foldl_distributeBar_sum edges bars _ h1 ?_]
  · simp [List.sum_replicate]
  · intro b hb
    refine ⟨?_, hlow b hb⟩
    have hhd : edges.headD 0 = minLow bars := by
      rw [hedges, generate_tick_bins, List.headD_cons]
    rw [hhd]
    exact minLow_le bars b hb

/-- The two-bar series witnessing the failure of C1 as stated: the second
bar's low and high both equal the final grid edge 10.05. -/
def cexBars : List Bar := [⟨10, 201/20, 100⟩, ⟨201/20, 201/20, 50⟩]

unseal Rat.inv Rat.mul Rat.add Rat.sub in
/-- C1 counterexample: on `cexBars` every volume is positive and the
internally built grid `[10, 10.05]` spans every bar's low and high, yet
the histogram sums to 100 while the volumes sum to 150: the second bar,
sitting exactly at the top edge, is dropped, refuting conservation as
originally claimed. -/
theorem volume_conservation_counterexample :
    (∀ b ∈ cexBars, 0 < b.volume) ∧
    (calculate_precise_volume_profile cexBars).2 = [10, 201/20] ∧
    (∀ b ∈ cexBars, 10 ≤ b.low ∧ b.high ≤ 201/20) ∧
    (calculate_precise_volume_profile cexBars).1.sum = 100 ∧
    (cexBars.map Bar.volume).sum = 150 :=
  ⟨by decide, by decide, by decide, by decide, by decide⟩

unseal Rat.inv Rat.mul Rat.add Rat.sub in
theorem volume_conservation_of_low_lt_last_edge_witness :
    (∀ b ∈ [Bar.mk 10 (201/20) 100], 0 < b.volume) ∧
    (∀ b ∈ [Bar.mk 10 (201/20) 100],
      b.low < (generate_tick_bins (minLow [Bar.mk 10 (201/20) 100])
        (maxHigh [Bar.mk 10 (201/20) 100])).getLastD 0) ∧
    ((calculate_precise_volume_profile [Bar.mk 10 (201/20) 100]).1).sum
      = ([Bar.mk 10 (201/20) 100].map Bar.volume).sum :=
  ⟨by decide, by decide,
   volume_conservation_of_low_lt_last_edge [Bar.mk 10 (201/20) 100] (by decide) (by decide)⟩

/-- C8: a zero-volume bar is skipped outright, leaving the histogram
unchanged, and the divisor `num_bins` that the nonzero-volume path
divides by is always strictly positive, so no division by zero can
occur in the distributor. -/
theorem zero_volume_bar_no_contribution (edges hist : List ℚ) (b : Bar) :
    (b.volume = 0 → distributeBar edges hist b = hist) ∧
    (touchedSpan edges hist.length b).1 < (touchedSpan edges hist.length b).2 :=
  ⟨fun hv => by rw [distributeBar_def, if_pos hv], touchedSpan_lt edges hist.length b⟩

theorem zero_volume_bar_no_contribution_witness :
    distributeBar [1, 2] [0] ⟨1, 2, 0⟩ = [0] ∧
    (touchedSpan [1, 2] ([(0:ℚ)]).length ⟨1, 2, 0⟩).1
      < (touchedSpan [1, 2] ([(0:ℚ)]).length ⟨1, 2, 0⟩).2 :=
  ⟨(zero_volume_bar_no_contribution [1, 2] [0] ⟨1, 2, 0⟩).1 rfl,
   (zero_volume_bar_no_contribution [1, 2] [0] ⟨1, 2, 0⟩).2⟩

/-- C10: for a bar whose low is at or above the final edge of a sorted
grid, the clamped start index equals the bucket count, the forced
one-bucket span ends one past the histogram, and the histogram is left
entirely unchanged: the bar's volume is silently dropped. -/
theorem bar_at_or_above_last_edge_dropped (edges hist : List ℚ) (b : Bar)
    (hsort : edges.Pairwise (· ≤ ·)) (hne : edges ≠ [])
    (hlen : hist.length + 1 = edges.length)
    (hlow : edges.getLastD 0 ≤ b.low) :
    (touchedSpan edges hist.length b).1 = (hist.length : ℤ) ∧
    (touchedSpan edges hist.length b).2 = (hist.length : ℤ) + 1 ∧
    distributeBar edges hist b = hist := by
  have hall : ∀ e ∈ edges, e ≤ b.low := fun e he =>
    le_trans (le_getLastD_of_pairwise edges 0 hsort e he) hlow
  have hssr : searchsorted_right edges b.low = edges.length := by
    unfold searchsorted_right
    exact List.countP_eq_length.mpr (fun e he => by simpa using hall e he)
  have hlenZ : (edges.length : ℤ) = (hist.length : ℤ) + 1 := by exact_mod_cast hlen.symm
  have hS : (touchedSpan edges hist.length b).1 = (hist.length : ℤ) := by
    rw [touchedSpan_eq]
    dsimp only
    rw [hssr, hlenZ]
    omega
  have hE : (touchedSpan edges hist.length b).2 = (hist.length : ℤ) + 1 := by
    rw [touchedSpan_eq]
    dsimp only
    rw [hssr, hlenZ]
    omega
  refine ⟨hS, hE, ?_⟩
  rw [distributeBar_def]
  split_ifs with h1 h2
  · rfl
  · rw [hS, hE]
    exact addSlice_of_length_le _ hist _ _ (by omega)
  · rfl

theorem bar_at_or_above_last_edge_dropped_witness :
    (touchedSpan [1, 2] ([(0:ℚ)]).length ⟨2, 3, 5⟩).1 = (([(0:ℚ)]).length : ℤ) ∧
    (touchedSpan [1, 2] ([(0:ℚ)]).length ⟨2, 3, 5⟩).2 = (([(0:ℚ)]).length : ℤ) + 1 ∧
    distributeBar [1, 2] [0] ⟨2, 3, 5⟩ = [0] :=
  bar_at_or_above_last_edge_dropped [1, 2] [0] ⟨2, 3, 5⟩ (by decide) (by decide)
    (by decide) (by decide)

/-! ### Helper lemmas: argmax -/

lemma np_argmax_lt_length : ∀ (l : List ℚ), l ≠ [] → np_argmax l < l.length
  | [], h => absurd rfl h
  | [_], _ => by simp [np_argmax]
  | x :: y :: rest, _ => by
    have ih := np_argmax_lt_length (y :: rest) (by simp)
    simp only [np_argmax]
    split_ifs
    · simpa using Nat.succ_lt_succ ih
    · simp

lemma np_argmax_le_getD : ∀ (l : List ℚ) (j : ℕ), j < l.length →
    l.getD j 0 ≤ l.getD (np_argmax l) 0
  | [], j, hj => absurd hj (by simp)
  | [x], j, hj => by
    have hj0 : j = 0 := by simpa using hj
    subst hj0
    simp [np_argmax]
  | x :: y :: rest, j, hj => by
    simp only [np_argmax]
    split_ifs with h
    · rw [List.getD_cons_succ]
      match j with
      | 0 => rw [List.getD_cons_zero]; exact le_of_lt h
      | k + 1 =>
        rw [List.getD_cons_succ]
        exact np_argmax_le_getD (y :: rest) k (by simpa using hj)
    · rw [List.getD_cons_zero]
      match j with
      | 0 => rw [List.getD_cons_zero]
      | k + 1 =>
        rw [List.getD_cons_succ]
        exact le_trans (np_argmax_le_getD (y :: rest) k (by simpa using hj)) (not_lt.mp h)

lemma np_argmax_first : ∀ (l : List ℚ) (j : ℕ), j < np_argmax l →
    l.getD j 0 < l.getD (np_argmax l) 0
  | [], j, hj => by simp [np_argmax] at hj
  | [_], j, hj => by simp [np_argmax] at hj
  | x :: y :: rest, j, hj => by
    simp only [np_argmax] at hj ⊢
    split_ifs at hj ⊢ with h
    · rw [List.getD_cons_succ]
      match j, hj with
      | 0, _ => rw [List.getD_cons_zero]; exact h
      | k + 1, hj =>
        rw [List.getD_cons_succ]
        exact np_argmax_first (y :: rest) k (by omega)
    · exact absurd hj (by omega)

/-! ### Claim C4 -/

/-- C4: on any non-empty histogram in which two or more buckets share the
maximum value, the summarizer picks the lowest-indexed maximal bucket
(every earlier bucket is strictly smaller), and the POC price is the
midpoint of that bucket's two grid edges. -/
theorem poc_tie_breaks_to_lowest_index (hist grid : List ℚ) (hne : hist ≠ [])
    (htie : ∃ i j, i < j ∧ j < hist.length ∧ hist.getD i 0 = hist.getD j 0 ∧
      ∀ k, k < hist.length → hist.getD k 0 ≤ hist.getD i 0) :
    np_argmax hist < hist.length ∧
    (∀ k, k < hist.length → hist.getD k 0 ≤ hist.getD (np_argmax hist) 0) ∧
    (∀ j, j < np_argmax hist → hist.getD j 0 < hist.getD (np_argmax hist) 0) ∧
    summarize hist grid
      = (np_argmax hist,
         (grid.getD (np_argmax hist) 0 + grid.getD (np_argmax hist + 1) 0) / 2) :=
  ⟨np_argmax_lt_length hist hne, fun k hk => np_argmax_le_getD hist k hk,
   fun j hj => np_argmax_first hist j hj, rfl⟩

theorem poc_tie_breaks_to_lowest_index_witness :
    ([(3:ℚ), 3] ≠ []) ∧
    (np_argmax [(3:ℚ), 3] < ([(3:ℚ), 3]).length ∧
     (∀ k, k < ([(3:ℚ), 3]).length →
       ([(3:ℚ), 3]).getD k 0 ≤ ([(3:ℚ), 3]).getD (np_argmax [(3:ℚ), 3]) 0) ∧
     (∀ j, j < np_argmax [(3:ℚ), 3] →
       ([(3:ℚ), 3]).getD j 0 < ([(3:ℚ), 3]).getD (np_argmax [(3:ℚ), 3]) 0) ∧
     summarize [(3:ℚ), 3] [0, 2, 4]
       = (np_argmax [(3:ℚ), 3],
          (([(0:ℚ), 2, 4]).getD (np_argmax [(3:ℚ), 3]) 0
            + ([(0:ℚ), 2, 4]).getD (np_argmax [(3:ℚ), 3] + 1) 0) / 2)) :=
  ⟨by decide,
   poc_tie_breaks_to_lowest_index [3, 3] [0, 2, 4] (by decide)
     ⟨0, 1, by decide, by decide, by decide, by decide⟩⟩

/-! ### Claims C3, C9, C6 -/

unseal Rat.inv Rat.mul Rat.add Rat.sub in
/-- C3: over the fixed grid with edges `[10, 11, 12]`, bar 1 (low 10,
high 11, volume 100) lands entirely in bucket 0 and bar 2 (low 10.5,
high 12, volume 200) splits evenly over both buckets, so the histogram
is `[200, 100]`; the summarizer then returns POC bucket 0 with POC
price 10.5. -/
theorem scenario_two_bars_fixed_grid :
    distribute [10, 11, 12] [⟨10, 11, 100⟩, ⟨21/2, 12, 200⟩] = [200, 100] ∧
    summarize (distribute [10, 11, 12] [⟨10, 11, 100⟩, ⟨21/2, 12, 200⟩]) [10, 11, 12]
      = (0, 21/2) :=
  ⟨by decide, by decide⟩

lemma rollingMean_getD (w : ℕ) (xs : List ℚ) (i : ℕ) (hi : i < xs.length) (d : Option ℚ) :
    (rollingMean w xs).getD i d
      = if i + 1 < w then none else some ((((xs.drop (i + 1 - w)).take w).sum) / w) := by
  unfold rollingMean
  rw [List.getD_eq_getElem?_getD, List.getElem?_map, List.getElem?_range hi]
  rfl

/-- C9: on a series of exactly 20 closes, the 20-period rolling mean is
missing (`none`, not zero) at indices 0 through 18 and defined at index
19, where it equals the arithmetic mean of all 20 closes. -/
theorem ma20_undefined_for_first_19 (closes : List ℚ) (hlen : closes.length = 20) :
    (rollingMean 20 closes).length = 20 ∧
    (∀ i, i ≤ 18 → (rollingMean 20 closes).getD i (some 0) = none) ∧
    (rollingMean 20 closes).getD 19 (some 0) = some (closes.sum / 20) := by
  refine ⟨?_, ?_, ?_⟩
  · simp [rollingMean, hlen]
  · intro i hi
    rw [rollingMean_getD 20 closes i (by omega) (some 0), if_pos (by omega)]
  · rw [rollingMean_getD 20 closes 19 (by omega) (some 0), if_neg (by omega)]
    have h0 : 19 + 1 - 20 = 0 := by norm_num
    rw [h0, List.drop_zero, List.take_of_length_le (by omega)]
    norm_num

theorem ma20_undefined_for_first_19_witness :
    (List.replicate 20 (1:ℚ)).length = 20 ∧
    ((rollingMean 20 (List.replicate 20 (1:ℚ))).length = 20 ∧
     (∀ i, i ≤ 18 → (rollingMean 20 (List.replicate 20 (1:ℚ))).getD i (some 0) = none) ∧
     (rollingMean 20 (List.replicate 20 (1:ℚ))).getD 19 (some 0)
       = some ((List.replicate 20 (1:ℚ)).sum / 20)) :=
  ⟨by decide, ma20_undefined_for_first_19 (List.replicate 20 (1:ℚ)) (by decide)⟩

lemma generate_fixed_bins_getD (low_price high_price : ℚ) (n i : ℕ) (hi : i < n + 1) :
    (generate_fixed_bins low_price high_price n).getD i 0
      = low_price + (high_price - low_price) * (i : ℚ) / (n : ℚ) := by
  unfold generate_fixed_bins
  rw [List.getD_eq_getElem?_getD, List.getElem?_map, List.getElem?_range hi]
  rfl

/-- C6: the fixed-count grid strategy (modelled from the spec, absent
from `src/app.py`) returns, for a bucket count n > 0, a grid of n+1
equally spaced edges running from the series minimum Low to the series
maximum High. -/
theorem fixed_count_grid_properties (bars : List Bar) (n : ℕ) (hn : 0 < n) :
    (generate_fixed_bins (minLow bars) (maxHigh bars) n).length = n + 1 ∧
    (generate_fixed_bins (minLow bars) (maxHigh bars) n).getD 0 0 = minLow bars ∧
    (generate_fixed_bins (minLow bars) (maxHigh bars) n).getD n 0 = maxHigh bars ∧
    (∀ i, i < n →
      (generate_fixed_bins (minLow bars) (maxHigh bars) n).getD (i + 1) 0
        - (generate_fixed_bins (minLow bars) (maxHigh bars) n).getD i 0
        = (maxHigh bars - minLow bars) / n) := by
  have hn' : (n : ℚ) ≠ 0 := by exact_mod_cast hn.ne'
  refine ⟨?_, ?_, ?_, ?_⟩
  · simp [generate_fixed_bins]
  · rw [generate_fixed_bins_getD _ _ n 0 (by omega)]
    simp
  · rw [generate_fixed_bins_getD _ _ n n (by omega)]
    field_simp
  · intro i hi
    rw [generate_fixed_bins_getD _ _ n (i + 1) (by omega),
      generate_fixed_bins_getD _ _ n i (by omega)]
    push_cast
    field_simp
    ring

theorem fixed_count_grid_properties_witness :
    0 < 2 ∧
    ((generate_fixed_bins (minLow [Bar.mk 1 11 5]) (maxHigh [Bar.mk 1 11 5]) 2).length = 2 + 1 ∧
     (generate_fixed_bins (minLow [Bar.mk 1 11 5]) (maxHigh [Bar.mk 1 11 5]) 2).getD 0 0
       = minLow [Bar.mk 1 11 5] ∧
     (generate_fixed_bins (minLow [Bar.mk 1 11 5]) (maxHigh [Bar.mk 1 11 5]) 2).getD 2 0
       = maxHigh [Bar.mk 1 11 5] ∧
     (∀ i, i < 2 →
       (generate_fixed_bins (minLow [Bar.mk 1 11 5]) (maxHigh [Bar.mk 1 11 5]) 2).getD (i + 1) 0
         - (generate_fixed_bins (minLow [Bar.mk 1 11 5]) (maxHigh [Bar.mk 1 11 5]) 2).getD i 0
         = (maxHigh [Bar.mk 1 11 5] - minLow [Bar.mk 1 11 5]) / 2)) :=
  ⟨by decide, fixed_count_grid_properties [Bar.mk 1 11 5] 2 (by decide)⟩
